import Mathlib

/-! Reachability over a call graph (`dependency_graph.go`).

A shallow embedding of `DependencyGraph` and its three methods `AddCall`,
`MarkRoot` and `GetReachable`, followed by theorems about them.

Modelling decisions.

* A Go `map[string]V` is an association list with pairwise distinct keys
  (`AList`).  `m[k]` is `lookup`, `m[k] = v` is `insert`, and the keys of the map
  are the keys of the list.
* A Go map has no iteration order: each executed `for k := range m` visits every
  key of `m` exactly once, in an order the program cannot choose.  The order is
  supplied by a `Schedule`: the `n`-th `range` statement executed during a call
  iterates the keys in the order `order n keys`, which is a permutation of the
  keys.
* The receiver `dg` is threaded through `GetReachable` as explicit state, so that
  "the call leaves the graph as it was" is a statement about the returned state.
* The recursion of the closure `dfs` is structural on a recursion-depth budget
  (`fuel`); `none` means the budget ran out.  `GetReachable` supplies a budget of
  one more than the number of symbols of the state, and the theorems show that
  this (and every larger budget) always suffices and gives the same result.
* `dfsLog` is `dfs` with two records added, for the statements about what happens
  during a call: the symbols whose callees were iterated, and the two local maps
  at the call of `dfs` and after each of its two assignments.  Dropping the
  records gives `dfs` back.
-/

namespace DepGraph

/-- The Go type `map[string]bool`. -/
abbrev BoolMap := AList (fun _ : String => Bool)

/-- The Go type `map[string]map[string]bool`. -/
abbrev EdgeMap := AList (fun _ : String => BoolMap)

/-- The Go expression `m[k]` on a `map[string]bool`: the stored value, or the zero
value `false` when `k` has no entry. -/
def BoolMap.index (m : BoolMap) (k : String) : Bool :=
  (m.lookup k).getD false

/-- The keys a `for k := range m` statement goes through when `m` is the value of
`graph[k]`; a missing entry reads as the nil map, which has no keys. -/
def rangeKeys : Option BoolMap → List String
  | none => []
  | some m => m.keys

/-- The struct `DependencyGraph`. -/
structure DependencyGraph where
  graph : EdgeMap
  roots : BoolMap

/-- The constructor `NewDependencyGraph`: both maps empty. -/
def NewDependencyGraph : DependencyGraph :=
  { graph := ∅, roots := ∅ }

/-- The method `AddCall`: create the callee map of `caller` when it reads as nil,
then store `true` under `callee` in it. -/
def AddCall (dg : DependencyGraph) (caller callee : String) : DependencyGraph :=
  let dg1 : DependencyGraph :=
    if dg.graph.lookup caller = none then
      { dg with graph := dg.graph.insert caller ∅ }
    else dg
  match dg1.graph.lookup caller with
  | some inner => { dg1 with graph := dg1.graph.insert caller (inner.insert callee true) }
  | none => dg1 -- not taken: after the `if` the entry of `caller` is never nil

/-- The method `MarkRoot`. -/
def MarkRoot (dg : DependencyGraph) (funcName : String) : DependencyGraph :=
  { dg with roots := dg.roots.insert funcName true }

/-- Iteration orders of the `range` statements of one call: the statement executed
as number `n` goes through `order n keys`. -/
structure Schedule where
  order : Nat → List String → List String
  perm : ∀ n keys, (order n keys).Perm keys

/-- The schedule that iterates every map in the order its keys are stored. -/
def Schedule.stored : Schedule :=
  { order := fun _ keys => keys, perm := fun _ _ => List.Perm.refl _ }

/-- The schedule that iterates every map in the reverse of the stored order. -/
def Schedule.reversed : Schedule :=
  { order := fun _ keys => keys.reverse, perm := fun _ keys => List.reverse_perm keys }

/-- State of one `GetReachable` call: the receiver, the two local maps, and the
number of `range` statements started so far. -/
structure St where
  dg : DependencyGraph
  reachable : BoolMap
  visited : BoolMap
  tick : Nat

/-- A `for k := range ... { body }` loop over the keys `keys` in the given order;
the body may fail, which ends the loop. -/
def forRange (body : String → St → Option St) : List String → St → Option St
  | [], st => some st
  | k :: ks, st =>
    match body k st with
    | none => none
    | some st1 => forRange body ks st1

/-- The closure `dfs` of `GetReachable`, with a recursion-depth budget. -/
def dfs (sched : Schedule) : Nat → String → St → Option St
  | 0, _, _ => none
  | fuel + 1, funcName, st =>
    if st.visited.index funcName then
      some st
    else
      let st1 : St := { st with visited := st.visited.insert funcName true }
      let st2 : St := { st1 with reachable := st1.reachable.insert funcName true }
      let keys := sched.order st2.tick (rangeKeys (st2.dg.graph.lookup funcName))
      forRange (fun callee s => dfs sched fuel callee s) keys { st2 with tick := st2.tick + 1 }

/-- The method `GetReachable` run with recursion-depth budget `fuel`: the returned
map together with the receiver as the call leaves it. -/
def GetReachableFuel (fuel : Nat) (sched : Schedule) (dg : DependencyGraph) :
    Option (BoolMap × DependencyGraph) :=
  let st0 : St := { dg := dg, reachable := ∅, visited := ∅, tick := 0 }
  let keys := sched.order st0.tick st0.dg.roots.keys
  match forRange (fun root s => dfs sched fuel root s) keys { st0 with tick := st0.tick + 1 } with
  | none => none
  | some st => some (st.reachable, st.dg)

/-- Every symbol the state mentions: the roots, the callers and their callees,
each listed once. -/
def symbols (dg : DependencyGraph) : List String :=
  (dg.roots.keys ++ dg.graph.keys ++
    dg.graph.entries.flatMap (fun e => e.2.keys)).dedup

/-- The symbols of the state that are not yet marked in `visited`. -/
def unvisited (st : St) : List String :=
  (symbols st.dg).filter (fun k => !st.visited.index k)

/-- The method `GetReachable`: the budget is one more than the number of symbols
of the state. -/
def GetReachable (sched : Schedule) (dg : DependencyGraph) : Option (BoolMap × DependencyGraph) :=
  GetReachableFuel ((symbols dg).length + 1) sched dg

/-- The recorded edge relation: `x` has an entry in the graph and `y` is a key of
its callee map. -/
def Edge (dg : DependencyGraph) (x y : String) : Prop :=
  ∃ m, dg.graph.lookup x = some m ∧ y ∈ m

/-- The symbol `s` is reached from some root by zero or more recorded edges. -/
def Reach (dg : DependencyGraph) (s : String) : Prop :=
  ∃ r, r ∈ dg.roots ∧ Relation.ReflTransGen (Edge dg) r s

/-- A mutation of the graph. -/
inductive Op where
  | addCall (caller callee : String)
  | markRoot (funcName : String)

/-- Carry out one mutation. -/
def Op.apply (dg : DependencyGraph) : Op → DependencyGraph
  | .addCall a b => AddCall dg a b
  | .markRoot s => MarkRoot dg s

/-- Carry out a sequence of mutations, first to last. -/
def applyOps (dg : DependencyGraph) (ops : List Op) : DependencyGraph :=
  ops.foldl Op.apply dg

/-! ## Example states -/

/-- Edge mapping with the two separate chains `A → B` and `C → D`. -/
def twoChains : EdgeMap :=
  (AddCall (AddCall NewDependencyGraph "A" "B") "C" "D").graph

/-- Root set `{A}`. -/
def rootsA : BoolMap := (MarkRoot NewDependencyGraph "A").roots

/-- Root set `{C}`. -/
def rootsC : BoolMap := (MarkRoot NewDependencyGraph "C").roots

/-- Root set `{A, C}`. -/
def rootsAC : BoolMap := (MarkRoot (MarkRoot NewDependencyGraph "A") "C").roots

/-- A state with a self-loop and a cycle: `A → A`, `A → B`, `B → A`, root `A`. -/
def loopy : DependencyGraph :=
  MarkRoot (AddCall (AddCall (AddCall NewDependencyGraph "A" "A") "A" "B") "B" "A") "A"

/-- A state whose only root `A` has no entry, next to the edge `B → C`. -/
def isolated : DependencyGraph :=
  MarkRoot (AddCall NewDependencyGraph "B" "C") "A"

/-! ## Notions used in the proofs -/

/-- Every stored value is `true`. -/
def AllTrue (m : BoolMap) : Prop :=
  ∀ x b, m.lookup x = some b → b = true

/-- Edge-closure of the visited marks, except at the symbols in `S` (those whose
callees are still being iterated). -/
def ClosedOff (S : String → Prop) (st : St) : Prop :=
  ∀ x, st.visited.index x = true → ¬ S x →
    ∀ y, Edge st.dg x y → st.visited.index y = true

/-- What a run of `dfs` on the symbols `T` (in some order, from state `st` to state
`st1`) guarantees. -/
structure Ext (T : List String) (st st1 : St) : Prop where
  dg_eq : st1.dg = st.dg
  mono : ∀ x, st.visited.index x = true → st1.visited.index x = true
  targets : ∀ t ∈ T, st1.visited.index t = true
  closed : ∀ S, ClosedOff S st → ClosedOff S st1
  sound : ∀ x, st1.visited.index x = true →
    st.visited.index x = true ∨ ∃ t ∈ T, Relation.ReflTransGen (Edge st.dg) t x
  sync : st.reachable = st.visited → st1.reachable = st1.visited
  allTrue : AllTrue st.visited → AllTrue st1.visited

/-- State in which `GetReachable` starts iterating the roots. -/
def St.init (dg : DependencyGraph) : St :=
  { dg := dg, reachable := ∅, visited := ∅, tick := 1 }

/-- State that `dfs` iterates the callees of `f` from: `f` marked in both maps. -/
def St.mark (st : St) (f : String) : St :=
  { dg := st.dg, reachable := st.reachable.insert f true,
    visited := st.visited.insert f true, tick := st.tick + 1 }

/-! ## The instrumented run

The same `dfs`, carrying two records next to its state: the symbols whose callees
it iterated, in order, and the contents of the two local maps at each program
point of the closure body. -/

/-- Program points of the body of `dfs`. -/
inductive Point where
  | entry
  | afterVisited
  | afterReachable
  deriving DecidableEq

/-- The two local maps as they are when `dfs funcName` stands at `point`:
`entry` is the call itself, `afterVisited` is just after `visited[funcName] = true`,
`afterReachable` is just after `reachable[funcName] = true`. -/
structure Snapshot where
  point : Point
  funcName : String
  visited : BoolMap
  reachable : BoolMap

/-- State of the instrumented run. -/
structure LSt where
  st : St
  log : List String
  trace : List Snapshot

/-- Record the two local maps at program point `p` of `dfs f`. -/
def LSt.snap (ls : LSt) (p : Point) (f : String) : LSt :=
  { ls with trace := ls.trace ++
      [{ point := p, funcName := f, visited := ls.st.visited, reachable := ls.st.reachable }] }

/-- The loop `forRange` over the instrumented state. -/
def forRangeLog (body : String → LSt → Option LSt) : List String → LSt → Option LSt
  | [], ls => some ls
  | k :: ks, ls =>
    match body k ls with
    | none => none
    | some ls1 => forRangeLog body ks ls1

/-- The closure `dfs`, instrumented: a snapshot at the call and after each of the
two assignments, and `funcName` appended to the log where its callees are
iterated. -/
def dfsLog (sched : Schedule) : Nat → String → LSt → Option LSt
  | 0, _, _ => none
  | fuel + 1, funcName, ls =>
    let ls0 := ls.snap Point.entry funcName
    if ls0.st.visited.index funcName then
      some ls0
    else
      let ls1 := LSt.snap
        { ls0 with st := { ls0.st with visited := ls0.st.visited.insert funcName true } }
        Point.afterVisited funcName
      let ls2 := LSt.snap
        { ls1 with st := { ls1.st with reachable := ls1.st.reachable.insert funcName true } }
        Point.afterReachable funcName
      let keys := sched.order ls2.st.tick (rangeKeys (ls2.st.dg.graph.lookup funcName))
      forRangeLog (fun callee s => dfsLog sched fuel callee s) keys
        { ls2 with st := { ls2.st with tick := ls2.st.tick + 1 }, log := ls2.log ++ [funcName] }

/-- The method `GetReachable`, instrumented, with recursion-depth budget `fuel`. -/
def GetReachableLogFuel (fuel : Nat) (sched : Schedule) (dg : DependencyGraph) : Option LSt :=
  let st0 : St := { dg := dg, reachable := ∅, visited := ∅, tick := 0 }
  let keys := sched.order st0.tick st0.dg.roots.keys
  forRangeLog (fun root s => dfsLog sched fuel root s) keys
    { st := { st0 with tick := st0.tick + 1 }, log := [], trace := [] }

/-- The method `GetReachable`, instrumented, with the budget of `GetReachable`. -/
def GetReachableLog (sched : Schedule) (dg : DependencyGraph) : Option LSt :=
  GetReachableLogFuel ((symbols dg).length + 1) sched dg

/-- State the instrumented `dfs` iterates the callees of `f` from: the three
snapshots taken, `f` marked in both maps and appended to the log. -/
def LSt.mark (ls : LSt) (f : String) : LSt :=
  { st := ls.st.mark f,
    log := ls.log ++ [f],
    trace := ls.trace ++
      [{ point := Point.entry, funcName := f,
         visited := ls.st.visited, reachable := ls.st.reachable }] ++
      [{ point := Point.afterVisited, funcName := f,
         visited := ls.st.visited.insert f true, reachable := ls.st.reachable }] ++
      [{ point := Point.afterReachable, funcName := f,
         visited := ls.st.visited.insert f true,
         reachable := ls.st.reachable.insert f true }] }

/-- State in which the instrumented `GetReachable` starts iterating the roots. -/
def LSt.init (dg : DependencyGraph) : LSt :=
  { st := St.init dg, log := [], trace := [] }

/-- The log lists the visited symbols, each once. -/
def LogOK (ls : LSt) : Prop :=
  ls.log.Nodup ∧ ∀ x, x ∈ ls.log ↔ ls.st.visited.index x = true

/-- A snapshot taken between the two assignments has `funcName` in `visited` and not
yet in `reachable`, the maps being equal otherwise; at the other two program
points the maps are equal. -/
def SnapOK (e : Snapshot) : Prop :=
  if e.point = Point.afterVisited then
    e.visited = e.reachable.insert e.funcName true ∧ e.reachable.index e.funcName = false
  else e.visited = e.reachable

/-- The two local maps are equal now, and every snapshot taken so far is as
`SnapOK` describes. -/
def TraceOK (ls : LSt) : Prop :=
  ls.st.reachable = ls.st.visited ∧ ∀ e ∈ ls.trace, SnapOK e

/-- Every value stored in the state is `true`. -/
def StoredTrue (dg : DependencyGraph) : Prop :=
  AllTrue dg.roots ∧ ∀ x m, dg.graph.lookup x = some m → AllTrue m

/-- The state after `AddCall(A, B)`, `AddCall(B, C)`, `MarkRoot(A)` on a fresh graph. -/
def chainOf (A B C : String) : DependencyGraph :=
  MarkRoot (AddCall (AddCall NewDependencyGraph A B) B C) A

/-- The state after `AddCall(A, B)`, `AddCall(B, A)`, `MarkRoot(A)` on a fresh graph. -/
def cycleOf (A B : String) : DependencyGraph :=
  MarkRoot (AddCall (AddCall NewDependencyGraph A B) B A) A

/-- The state after `AddCall(A, A)`, `MarkRoot(A)` on a fresh graph. -/
def selfLoopOf (A : String) : DependencyGraph :=
  MarkRoot (AddCall NewDependencyGraph A A) A

/-! ## Lemmas on `map[string]bool` -/

theorem index_insert_true (m : BoolMap) (k x : String) :
    BoolMap.index (m.insert k true) x = true ↔ x = k ∨ m.index x = true := by
  by_cases h : x = k
  · subst h
    simp [BoolMap.index, AList.lookup_insert]
  · simp [BoolMap.index, AList.lookup_insert_ne h, h]

theorem mem_of_index {m : BoolMap} {x : String} (h : m.index x = true) : x ∈ m := by
  rw [← AList.lookup_isSome]
  unfold BoolMap.index at h
  cases hl : m.lookup x with
  | none => simp [hl] at h
  | some b => simp

theorem allTrue_empty : AllTrue (∅ : BoolMap) := by
  intro x b h
  simp at h

theorem allTrue_insert {m : BoolMap} (h : AllTrue m) (k : String) :
    AllTrue (m.insert k true) := by
  intro x b hx
  by_cases hk : x = k
  · subst hk
    rw [AList.lookup_insert] at hx
    exact (Option.some.inj hx).symm
  · rw [AList.lookup_insert_ne hk] at hx
    exact h x b hx

theorem lookup_of_mem {m : BoolMap} (h : AllTrue m) {x : String} (hx : x ∈ m) :
    m.lookup x = some true := by
  rw [← AList.lookup_isSome] at hx
  cases hl : m.lookup x with
  | none => simp [hl] at hx
  | some b => rw [h x b hl]

theorem index_iff_mem {m : BoolMap} (h : AllTrue m) (x : String) :
    m.index x = true ↔ x ∈ m := by
  constructor
  · exact mem_of_index
  · intro hx
    simp [BoolMap.index, lookup_of_mem h hx]

theorem mem_rangeKeys (dg : DependencyGraph) (x y : String) :
    y ∈ rangeKeys (dg.graph.lookup x) ↔ Edge dg x y := by
  unfold Edge
  cases h : dg.graph.lookup x with
  | none => simp [rangeKeys]
  | some m => simp [rangeKeys, AList.mem_keys]

/-! ## What `dfs` guarantees -/

theorem Ext.nil (st : St) : Ext [] st st where
  dg_eq := rfl
  mono := fun _ h => h
  targets := fun _ h => absurd h (List.not_mem_nil _)
  closed := fun _ h => h
  sound := fun _ h => Or.inl h
  sync := fun h => h
  allTrue := fun h => h

theorem Ext.cons {k : String} {ks : List String} {st st1 st2 : St}
    (h1 : Ext [k] st st1) (h2 : Ext ks st1 st2) : Ext (k :: ks) st st2 where
  dg_eq := h2.dg_eq.trans h1.dg_eq
  mono := fun x h => h2.mono x (h1.mono x h)
  targets := by
    intro t ht
    rcases List.mem_cons.mp ht with rfl | ht
    · exact h2.mono _ (h1.targets _ (List.mem_singleton.mpr rfl))
    · exact h2.targets t ht
  closed := fun S h => h2.closed S (h1.closed S h)
  sound := by
    intro x hx
    rcases h2.sound x hx with h | ⟨t, ht, hr⟩
    · rcases h1.sound x h with h | ⟨t, ht, hr⟩
      · exact Or.inl h
      · rw [List.mem_singleton] at ht
        subst ht
        exact Or.inr ⟨t, List.mem_cons_self _ _, hr⟩
    · rw [h1.dg_eq] at hr
      exact Or.inr ⟨t, List.mem_cons_of_mem _ ht, hr⟩
  sync := fun h => h2.sync (h1.sync h)
  allTrue := fun h => h2.allTrue (h1.allTrue h)

theorem Ext.of_mem {T T2 : List String} {st st1 : St} (h : Ext T st st1)
    (hm : ∀ t, t ∈ T2 ↔ t ∈ T) : Ext T2 st st1 where
  dg_eq := h.dg_eq
  mono := h.mono
  targets := fun t ht => h.targets t ((hm t).mp ht)
  closed := h.closed
  sound := by
    intro x hx
    rcases h.sound x hx with h | ⟨t, ht, hr⟩
    · exact Or.inl h
    · exact Or.inr ⟨t, (hm t).mpr ht, hr⟩
  sync := h.sync
  allTrue := h.allTrue

theorem forRange_ext {body : String → St → Option St}
    (hb : ∀ k s s1, body k s = some s1 → Ext [k] s s1) :
    ∀ (ks : List String) (st st1 : St), forRange body ks st = some st1 → Ext ks st st1 := by
  intro ks
  induction ks with
  | nil =>
    intro st st1 h
    simp only [forRange, Option.some.injEq] at h
    subst h
    exact Ext.nil st
  | cons k ks ih =>
    intro st st1 h
    simp only [forRange] at h
    cases hk : body k st with
    | none => simp [hk] at h
    | some s1 =>
      rw [hk] at h
      exact Ext.cons (hb k st s1 hk) (ih s1 st1 h)

theorem dfs_zero (sched : Schedule) (f : String) (st : St) : dfs sched 0 f st = none := rfl

theorem dfs_succ (sched : Schedule) (fuel : Nat) (f : String) (st : St) :
    dfs sched (fuel + 1) f st =
      if st.visited.index f then some st
      else forRange (fun callee s => dfs sched fuel callee s)
        (sched.order st.tick (rangeKeys (st.dg.graph.lookup f))) (st.mark f) := rfl

theorem mem_order (sched : Schedule) (n : Nat) (dg : DependencyGraph) (x y : String) :
    y ∈ sched.order n (rangeKeys (dg.graph.lookup x)) ↔ Edge dg x y := by
  rw [(sched.perm n _).mem_iff, mem_rangeKeys]

theorem index_mark (st : St) (f x : String) :
    (st.mark f).visited.index x = true ↔ x = f ∨ st.visited.index x = true :=
  index_insert_true st.visited f x

theorem closedOff_mark {S : String → Prop} {st : St} (f : String) (hc : ClosedOff S st) :
    ClosedOff (fun x => S x ∨ x = f) (st.mark f) := by
  intro x hx hS y hy
  have hxf : x ≠ f := fun h => hS (Or.inr h)
  have hxS : ¬ S x := fun h => hS (Or.inl h)
  rcases (index_mark st f x).mp hx with h | h
  · exact absurd h hxf
  · exact (index_mark st f y).mpr (Or.inr (hc x h hxS y hy))

theorem dfs_ext (sched : Schedule) :
    ∀ (fuel : Nat) (f : String) (st st1 : St), dfs sched fuel f st = some st1 → Ext [f] st st1 := by
  intro fuel
  induction fuel with
  | zero =>
    intro f st st1 h
    simp [dfs_zero] at h
  | succ fuel ih =>
    intro f st st1 h
    rw [dfs_succ] at h
    by_cases hv : st.visited.index f = true
    · simp only [hv, if_true, Option.some.injEq] at h
      subst h
      exact
        { dg_eq := rfl
          mono := fun _ h => h
          targets := fun t ht => by rw [List.mem_singleton.mp ht]; exact hv
          closed := fun _ h => h
          sound := fun _ h => Or.inl h
          sync := fun h => h
          allTrue := fun h => h }
    · simp only [hv, if_false] at h
      have hloop := forRange_ext (fun k s s1 hk => ih k s s1 hk) _ _ _ h
      have hdg : st1.dg = st.dg := hloop.dg_eq
      have hkeys : ∀ y, y ∈ sched.order st.tick (rangeKeys (st.dg.graph.lookup f)) ↔
          Edge st.dg f y := mem_order sched st.tick st.dg f
      refine
        { dg_eq := hdg
          mono := fun x hx => hloop.mono x ((index_mark st f x).mpr (Or.inr hx))
          targets := fun t ht => by
            rw [List.mem_singleton.mp ht]
            exact hloop.mono f ((index_mark st f f).mpr (Or.inl rfl))
          closed := ?_
          sound := ?_
          sync := fun hs => hloop.sync (by simp [St.mark, hs])
          allTrue := fun ha => hloop.allTrue (allTrue_insert ha f) }
      · intro S hc x hx hS y hy
        by_cases hxf : x = f
        · subst hxf
          rw [hdg] at hy
          exact hloop.targets y ((hkeys y).mpr hy)
        · exact hloop.closed _ (closedOff_mark f hc) x hx
            (fun h => h.elim hS hxf) y hy
      · intro x hx
        rcases hloop.sound x hx with h | ⟨t, ht, hr⟩
        · rcases (index_mark st f x).mp h with h | h
          · exact Or.inr ⟨f, List.mem_singleton.mpr rfl, h ▸ Relation.ReflTransGen.refl⟩
          · exact Or.inl h
        · exact Or.inr ⟨f, List.mem_singleton.mpr rfl,
            Relation.ReflTransGen.head ((hkeys t).mp ht) hr⟩

/-! ## Termination: the unvisited symbols as a measure -/

theorem mem_symbols_of_edge {dg : DependencyGraph} {x y : String} (h : Edge dg x y) :
    x ∈ symbols dg := by
  obtain ⟨m, hm, _⟩ := h
  have hx : x ∈ dg.graph := by
    rw [← AList.lookup_isSome, hm]
    rfl
  unfold symbols
  rw [List.mem_dedup]
  exact List.mem_append_left _ (List.mem_append_right _ (AList.mem_keys.mp hx))

theorem unvisited_length_le {T : List String} {st st1 : St} (h : Ext T st st1) :
    (unvisited st1).length ≤ (unvisited st).length := by
  unfold unvisited
  rw [h.dg_eq]
  apply List.Sublist.length_le
  apply List.monotone_filter_right
  intro k hk
  cases hv : st.visited.index k with
  | false => rfl
  | true =>
    have := h.mono k hv
    simp [this] at hk

theorem unvisited_mark_lt {st : St} {f : String} (hf : f ∈ symbols st.dg)
    (hv : ¬ st.visited.index f = true) :
    (unvisited (st.mark f)).length < (unvisited st).length := by
  have hsplit : unvisited (st.mark f) = (unvisited st).filter (fun k => decide (k ≠ f)) := by
    unfold unvisited
    rw [List.filter_filter]
    apply List.filter_congr
    intro k _
    by_cases hk : k = f
    · subst hk
      have := (index_mark st k k).mpr (Or.inl rfl)
      simp [this]
    · cases hv2 : st.visited.index k with
      | true =>
        have := (index_mark st f k).mpr (Or.inr hv2)
        simp [this]
      | false =>
        have h2 : ¬ (st.mark f).visited.index k = true := by
          intro h
          rcases (index_mark st f k).mp h with h | h
          · exact hk h
          · simp [hv2] at h
        simp [h2, hk]
  rw [hsplit, List.length_filter_lt_length_iff_exists]
  refine ⟨f, ?_, by simp⟩
  unfold unvisited
  rw [List.mem_filter]
  exact ⟨hf, by simpa using hv⟩

theorem forRange_total {body : String → St → Option St} (I : St → Prop)
    (hb : ∀ k s, I s → ∃ s1, body k s = some s1 ∧ I s1) :
    ∀ (ks : List String) (st : St), I st → ∃ st1, forRange body ks st = some st1 ∧ I st1 := by
  intro ks
  induction ks with
  | nil => exact fun st h => ⟨st, rfl, h⟩
  | cons k ks ih =>
    intro st h
    obtain ⟨s1, hs1, hI⟩ := hb k st h
    obtain ⟨st1, hst1, hI1⟩ := ih s1 hI
    exact ⟨st1, by simp only [forRange, hs1, hst1], hI1⟩

theorem dfs_total (sched : Schedule) :
    ∀ (fuel : Nat) (f : String) (st : St), (unvisited st).length < fuel →
      ∃ st1, dfs sched fuel f st = some st1 := by
  intro fuel
  induction fuel with
  | zero => exact fun f st h => absurd h (Nat.not_lt_zero _)
  | succ fuel ih =>
    intro f st hlt
    rw [dfs_succ]
    by_cases hv : st.visited.index f = true
    · exact ⟨st, by simp [hv]⟩
    · simp only [hv, if_false]
      cases hks : sched.order st.tick (rangeKeys (st.dg.graph.lookup f)) with
      | nil => exact ⟨st.mark f, rfl⟩
      | cons y ys =>
        have hy : Edge st.dg f y := by
          rw [← mem_order sched st.tick, hks]
          exact List.mem_cons_self _ _
        have hlt2 : (unvisited (st.mark f)).length < fuel :=
          Nat.lt_of_lt_of_le (unvisited_mark_lt (mem_symbols_of_edge hy) hv)
            (Nat.le_of_lt_succ hlt)
        obtain ⟨st1, h1, _⟩ := forRange_total (fun s => (unvisited s).length < fuel)
          (fun k s hs => by
            obtain ⟨s1, h1⟩ := ih k s hs
            exact ⟨s1, h1, Nat.lt_of_le_of_lt (unvisited_length_le (dfs_ext sched _ _ _ _ h1)) hs⟩)
          (y :: ys) (st.mark f) hlt2
        exact ⟨st1, h1⟩

theorem forRange_some_of_imp {b1 b2 : String → St → Option St}
    (hb : ∀ k s s1, b1 k s = some s1 → b2 k s = some s1) :
    ∀ (ks : List String) (st st1 : St),
      forRange b1 ks st = some st1 → forRange b2 ks st = some st1 := by
  intro ks
  induction ks with
  | nil => exact fun st st1 h => h
  | cons k ks ih =>
    intro st st1 h
    simp only [forRange] at h ⊢
    cases hk : b1 k st with
    | none => simp [hk] at h
    | some s1 =>
      rw [hk] at h
      rw [hb k st s1 hk]
      exact ih s1 st1 h

theorem dfs_fuel_succ (sched : Schedule) :
    ∀ (fuel : Nat) (f : String) (st st1 : St),
      dfs sched fuel f st = some st1 → dfs sched (fuel + 1) f st = some st1 := by
  intro fuel
  induction fuel with
  | zero =>
    intro f st st1 h
    simp [dfs_zero] at h
  | succ fuel ih =>
    intro f st st1 h
    rw [dfs_succ] at h ⊢
    by_cases hv : st.visited.index f = true
    · simpa [hv] using h
    · simp only [hv, if_false] at h ⊢
      exact forRange_some_of_imp (fun k s s1 hk => ih k s s1 hk) _ _ _ h

theorem dfs_fuel_le (sched : Schedule) {fuel fuel2 : Nat} (hle : fuel ≤ fuel2)
    (f : String) (st st1 : St) (h : dfs sched fuel f st = some st1) :
    dfs sched fuel2 f st = some st1 := by
  induction hle with
  | refl => exact h
  | step _ ih => exact dfs_fuel_succ sched _ f st st1 ih

/-! ## The whole call -/

theorem getReachableFuel_eq (fuel : Nat) (sched : Schedule) (dg : DependencyGraph) :
    GetReachableFuel fuel sched dg =
      match forRange (fun root s => dfs sched fuel root s) (sched.order 0 dg.roots.keys)
        (St.init dg) with
      | none => none
      | some st => some (st.reachable, st.dg) := rfl

theorem index_init (dg : DependencyGraph) (x : String) :
    ¬ (St.init dg).visited.index x = true := by
  simp [St.init, BoolMap.index]

theorem roots_run (sched : Schedule) (dg : DependencyGraph) (fuel : Nat)
    (hfuel : (symbols dg).length < fuel) :
    ∃ st1, forRange (fun root s => dfs sched fuel root s) (sched.order 0 dg.roots.keys)
        (St.init dg) = some st1 ∧ Ext (sched.order 0 dg.roots.keys) (St.init dg) st1 := by
  have h0 : (unvisited (St.init dg)).length < fuel :=
    Nat.lt_of_le_of_lt (List.length_filter_le _ _) hfuel
  obtain ⟨st1, h1, _⟩ := forRange_total (fun s => (unvisited s).length < fuel)
    (fun k s hs => by
      obtain ⟨s1, h1⟩ := dfs_total sched fuel k s hs
      exact ⟨s1, h1, Nat.lt_of_le_of_lt (unvisited_length_le (dfs_ext sched _ _ _ _ h1)) hs⟩)
    (sched.order 0 dg.roots.keys) (St.init dg) h0
  exact ⟨st1, h1, forRange_ext (dfs_ext sched fuel) _ _ _ h1⟩

/-- Total correctness of the call, for every budget above the number of symbols:
it returns, it hands the receiver back as it was, every stored value is `true`,
and the keys are the symbols reached from a root. -/
theorem getReachableFuel_spec (sched : Schedule) (dg : DependencyGraph) (fuel : Nat)
    (hfuel : (symbols dg).length < fuel) :
    ∃ r, GetReachableFuel fuel sched dg = some (r, dg) ∧ AllTrue r ∧
      ∀ s, s ∈ r ↔ Reach dg s := by
  obtain ⟨st1, hrun, hext⟩ := roots_run sched dg fuel hfuel
  have hdg : st1.dg = dg := hext.dg_eq
  have hsync : st1.reachable = st1.visited := hext.sync rfl
  have hall : AllTrue st1.visited := hext.allTrue allTrue_empty
  have hroots : ∀ t, t ∈ sched.order 0 dg.roots.keys ↔ t ∈ dg.roots := by
    intro t
    rw [(sched.perm 0 _).mem_iff, AList.mem_keys]
  refine ⟨st1.reachable, ?_, hsync ▸ hall, ?_⟩
  · rw [getReachableFuel_eq, hrun]
    simp only [hdg]
  · intro s
    rw [hsync, ← index_iff_mem hall]
    constructor
    · intro hs
      rcases hext.sound s hs with h | ⟨t, ht, hr⟩
      · exact absurd h (index_init dg s)
      · exact ⟨t, (hroots t).mp ht, hr⟩
    · rintro ⟨t, ht, hr⟩
      have hclosed : ClosedOff (fun _ => False) st1 :=
        hext.closed _ (fun x hx => absurd hx (index_init dg x))
      induction hr with
      | refl => exact hext.targets t ((hroots t).mpr ht)
      | tail _ hedge ih => exact hclosed _ ih (fun h => h) _ (hdg ▸ hedge)

theorem getReachable_spec (sched : Schedule) (dg : DependencyGraph) :
    ∃ r, GetReachable sched dg = some (r, dg) ∧ AllTrue r ∧ ∀ s, s ∈ r ↔ Reach dg s :=
  getReachableFuel_spec sched dg _ (Nat.lt_succ_self _)

theorem getReachableFuel_eq_getReachable (sched : Schedule) (dg : DependencyGraph) (fuel : Nat)
    (hfuel : (symbols dg).length < fuel) :
    GetReachableFuel fuel sched dg = GetReachable sched dg := by
  obtain ⟨st1, hrun, _⟩ := roots_run sched dg _ (Nat.lt_succ_self (symbols dg).length)
  have hrun2 := forRange_some_of_imp
    (fun k s s1 hk => dfs_fuel_le sched (Nat.succ_le_of_lt hfuel) k s s1 hk) _ _ _ hrun
  unfold GetReachable
  rw [getReachableFuel_eq, getReachableFuel_eq, hrun, hrun2]

/-! ## The two mutations -/

theorem addCall_eq (dg : DependencyGraph) (a b : String) :
    AddCall dg a b =
      { graph := dg.graph.insert a (((dg.graph.lookup a).getD ∅).insert b true),
        roots := dg.roots } := by
  unfold AddCall
  cases h : dg.graph.lookup a with
  | none => simp [AList.lookup_insert, AList.insert_insert]
  | some m => simp [h]

theorem addCall_roots (dg : DependencyGraph) (a b : String) :
    (AddCall dg a b).roots = dg.roots := by
  rw [addCall_eq]

theorem addCall_lookup_self (dg : DependencyGraph) (a b : String) :
    (AddCall dg a b).graph.lookup a =
      some (((dg.graph.lookup a).getD ∅).insert b true) := by
  rw [addCall_eq]
  exact AList.lookup_insert _

theorem addCall_lookup_ne (dg : DependencyGraph) (a b : String) {x : String} (hx : x ≠ a) :
    (AddCall dg a b).graph.lookup x = dg.graph.lookup x := by
  rw [addCall_eq]
  exact AList.lookup_insert_ne hx

theorem addCall_idem (dg : DependencyGraph) (a b : String) :
    AddCall (AddCall dg a b) a b = AddCall dg a b := by
  rw [addCall_eq (AddCall dg a b), addCall_lookup_self, addCall_roots]
  rw [addCall_eq dg]
  simp [AList.insert_insert]

theorem edge_addCall (dg : DependencyGraph) (a b x y : String) :
    Edge (AddCall dg a b) x y ↔ Edge dg x y ∨ (x = a ∧ y = b) := by
  unfold Edge
  by_cases hx : x = a
  · subst hx
    rw [addCall_lookup_self]
    cases h : dg.graph.lookup x with
    | none =>
      simp only [Option.getD_none, Option.some.injEq, exists_eq_left', AList.mem_insert,
        false_and, exists_false, false_or, true_and, reduceCtorEq]
      simp
    | some m =>
      simp only [Option.getD_some, Option.some.injEq, exists_eq_left', AList.mem_insert, true_and]
      tauto
  · rw [addCall_lookup_ne dg a b hx]
    simp [hx]

theorem edge_markRoot (dg : DependencyGraph) (r x y : String) :
    Edge (MarkRoot dg r) x y ↔ Edge dg x y := Iff.rfl

theorem mem_roots_markRoot (dg : DependencyGraph) (r x : String) :
    x ∈ (MarkRoot dg r).roots ↔ x = r ∨ x ∈ dg.roots :=
  AList.mem_insert dg.roots

theorem reach_mono {dg dg2 : DependencyGraph} (hr : ∀ x, x ∈ dg.roots → x ∈ dg2.roots)
    (he : ∀ x y, Edge dg x y → Edge dg2 x y) {s : String} (h : Reach dg s) : Reach dg2 s := by
  obtain ⟨r, hrr, hp⟩ := h
  exact ⟨r, hr r hrr, Relation.ReflTransGen.mono he hp⟩

theorem reach_addCall {dg : DependencyGraph} (a b : String) {s : String} (h : Reach dg s) :
    Reach (AddCall dg a b) s :=
  reach_mono (fun x hx => by rw [addCall_roots]; exact hx)
    (fun x y hxy => (edge_addCall dg a b x y).mpr (Or.inl hxy)) h

theorem reach_markRoot {dg : DependencyGraph} (r : String) {s : String} (h : Reach dg s) :
    Reach (MarkRoot dg r) s :=
  reach_mono (fun x hx => (mem_roots_markRoot dg r x).mpr (Or.inr hx)) (fun _ _ h => h) h

theorem reach_applyOps (ops : List Op) :
    ∀ (dg : DependencyGraph) {s : String}, Reach dg s → Reach (applyOps dg ops) s := by
  induction ops with
  | nil => exact fun dg s h => h
  | cons op ops ih =>
    intro dg s h
    show Reach (applyOps (op.apply dg) ops) s
    apply ih
    cases op with
    | addCall a b => exact reach_addCall a b h
    | markRoot r => exact reach_markRoot r h

theorem lookup_eq_of_mem_iff {r1 r2 : BoolMap} (h1 : AllTrue r1) (h2 : AllTrue r2)
    (h : ∀ s, s ∈ r1 ↔ s ∈ r2) (s : String) : r1.lookup s = r2.lookup s := by
  by_cases hs : s ∈ r1
  · rw [lookup_of_mem h1 hs, lookup_of_mem h2 ((h s).mp hs)]
  · rw [AList.lookup_eq_none.mpr hs, AList.lookup_eq_none.mpr (fun h3 => hs ((h s).mpr h3))]

/-- Two calls on states with the same reachability relation return the same set,
whatever the iteration orders. -/
theorem getReachable_agree (sched1 sched2 : Schedule) (dg1 dg2 : DependencyGraph)
    (h : ∀ s, Reach dg1 s ↔ Reach dg2 s) :
    ∃ r1 r2, GetReachable sched1 dg1 = some (r1, dg1) ∧
      GetReachable sched2 dg2 = some (r2, dg2) ∧
      (∀ s, s ∈ r1 ↔ s ∈ r2) ∧ ∀ s, r1.lookup s = r2.lookup s := by
  obtain ⟨r1, hr1, ha1, hm1⟩ := getReachable_spec sched1 dg1
  obtain ⟨r2, hr2, ha2, hm2⟩ := getReachable_spec sched2 dg2
  have hmem : ∀ s, s ∈ r1 ↔ s ∈ r2 := fun s => by rw [hm1, hm2, h]
  exact ⟨r1, r2, hr1, hr2, hmem, lookup_eq_of_mem_iff ha1 ha2 hmem⟩

/-! ## The instrumented run and the plain one -/

theorem dfsLog_zero (sched : Schedule) (f : String) (ls : LSt) :
    dfsLog sched 0 f ls = none := rfl

theorem dfsLog_succ (sched : Schedule) (fuel : Nat) (f : String) (ls : LSt) :
    dfsLog sched (fuel + 1) f ls =
      if ls.st.visited.index f then some (ls.snap Point.entry f)
      else forRangeLog (fun callee s => dfsLog sched fuel callee s)
        (sched.order ls.st.tick (rangeKeys (ls.st.dg.graph.lookup f))) (ls.mark f) := rfl

theorem getReachableLogFuel_eq (fuel : Nat) (sched : Schedule) (dg : DependencyGraph) :
    GetReachableLogFuel fuel sched dg =
      forRangeLog (fun root s => dfsLog sched fuel root s) (sched.order 0 dg.roots.keys)
        (LSt.init dg) := rfl

theorem forRangeLog_erase {bl : String → LSt → Option LSt} {b : String → St → Option St}
    (hb : ∀ k ls, (bl k ls).map LSt.st = b k ls.st) :
    ∀ (ks : List String) (ls : LSt),
      (forRangeLog bl ks ls).map LSt.st = forRange b ks ls.st := by
  intro ks
  induction ks with
  | nil => exact fun ls => rfl
  | cons k ks ih =>
    intro ls
    have hk := hb k ls
    simp only [forRangeLog, forRange]
    cases h : bl k ls with
    | none =>
      rw [h] at hk
      rw [← hk]
      rfl
    | some ls1 =>
      rw [h] at hk
      rw [← hk]
      exact ih ls1

theorem dfsLog_erase (sched : Schedule) :
    ∀ (fuel : Nat) (f : String) (ls : LSt),
      (dfsLog sched fuel f ls).map LSt.st = dfs sched fuel f ls.st := by
  intro fuel
  induction fuel with
  | zero => exact fun f ls => rfl
  | succ fuel ih =>
    intro f ls
    rw [dfsLog_succ, dfs_succ]
    by_cases hv : ls.st.visited.index f = true
    · simp only [hv, if_true]
      rfl
    · simp only [hv, if_false]
      exact forRangeLog_erase (fun k l => ih k l) _ (ls.mark f)

theorem forRangeLog_inv {bl : String → LSt → Option LSt} (I : LSt → Prop)
    (hb : ∀ k ls ls1, I ls → bl k ls = some ls1 → I ls1) :
    ∀ (ks : List String) (ls ls1 : LSt), I ls → forRangeLog bl ks ls = some ls1 → I ls1 := by
  intro ks
  induction ks with
  | nil =>
    intro ls ls1 hI h
    simp only [forRangeLog, Option.some.injEq] at h
    exact h ▸ hI
  | cons k ks ih =>
    intro ls ls1 hI h
    simp only [forRangeLog] at h
    cases hk : bl k ls with
    | none => simp [hk] at h
    | some l1 =>
      rw [hk] at h
      exact ih l1 ls1 (hb k ls l1 hI hk) h

theorem logOK_mark {ls : LSt} {f : String} (h : LogOK ls)
    (hv : ¬ ls.st.visited.index f = true) : LogOK (ls.mark f) := by
  obtain ⟨hnd, hmem⟩ := h
  constructor
  · show (ls.log ++ [f]).Nodup
    rw [List.nodup_append]
    refine ⟨hnd, List.nodup_singleton f, ?_⟩
    intro x hx hx2
    rw [List.mem_singleton] at hx2
    subst hx2
    exact hv ((hmem x).mp hx)
  · intro x
    show x ∈ ls.log ++ [f] ↔ (ls.st.mark f).visited.index x = true
    rw [index_mark, List.mem_append, List.mem_singleton, hmem]
    tauto

theorem dfsLog_logOK (sched : Schedule) :
    ∀ (fuel : Nat) (f : String) (ls ls1 : LSt),
      LogOK ls → dfsLog sched fuel f ls = some ls1 → LogOK ls1 := by
  intro fuel
  induction fuel with
  | zero =>
    intro f ls ls1 _ h
    simp [dfsLog_zero] at h
  | succ fuel ih =>
    intro f ls ls1 hI h
    rw [dfsLog_succ] at h
    by_cases hv : ls.st.visited.index f = true
    · simp only [hv, if_true, Option.some.injEq] at h
      subst h
      exact hI
    · simp only [hv, if_false] at h
      exact forRangeLog_inv LogOK (fun k l l1 hl hk => ih k l l1 hl hk) _ _ _
        (logOK_mark hI hv) h

theorem snapOK_of_eq {e : Snapshot} (hp : e.point ≠ Point.afterVisited)
    (h : e.visited = e.reachable) : SnapOK e := by
  unfold SnapOK
  rw [if_neg hp]
  exact h

theorem traceOK_snap {ls : LSt} (f : String) (h : TraceOK ls) :
    TraceOK (ls.snap Point.entry f) := by
  refine ⟨h.1, ?_⟩
  intro e he
  have he2 : e ∈ ls.trace ++ [⟨Point.entry, f, ls.st.visited, ls.st.reachable⟩] := he
  rw [List.mem_append, List.mem_singleton] at he2
  rcases he2 with he2 | rfl
  · exact h.2 e he2
  · exact snapOK_of_eq (by simp) h.1.symm

theorem traceOK_mark {ls : LSt} {f : String} (h : TraceOK ls)
    (hv : ¬ ls.st.visited.index f = true) : TraceOK (ls.mark f) := by
  have hrv : ls.st.reachable = ls.st.visited := h.1
  constructor
  · show ls.st.reachable.insert f true = ls.st.visited.insert f true
    rw [hrv]
  · intro e he
    simp only [LSt.mark, List.mem_append, List.mem_singleton] at he
    rcases he with ((he | rfl) | rfl) | rfl
    · exact h.2 e he
    · exact snapOK_of_eq (by simp) hrv.symm
    · unfold SnapOK
      rw [if_pos rfl]
      refine ⟨by rw [hrv], ?_⟩
      show ls.st.reachable.index f = false
      rw [hrv]
      simpa using hv
    · exact snapOK_of_eq (by simp) (by rw [hrv])

theorem dfsLog_traceOK (sched : Schedule) :
    ∀ (fuel : Nat) (f : String) (ls ls1 : LSt),
      TraceOK ls → dfsLog sched fuel f ls = some ls1 → TraceOK ls1 := by
  intro fuel
  induction fuel with
  | zero =>
    intro f ls ls1 _ h
    simp [dfsLog_zero] at h
  | succ fuel ih =>
    intro f ls ls1 hI h
    rw [dfsLog_succ] at h
    by_cases hv : ls.st.visited.index f = true
    · simp only [hv, if_true, Option.some.injEq] at h
      subst h
      exact traceOK_snap f hI
    · simp only [hv, if_false] at h
      exact forRangeLog_inv TraceOK (fun k l l1 hl hk => ih k l l1 hl hk) _ _ _
        (traceOK_mark hI hv) h

theorem getReachableLogFuel_erase (fuel : Nat) (sched : Schedule) (dg : DependencyGraph) :
    (GetReachableLogFuel fuel sched dg).map (fun ls => (ls.st.reachable, ls.st.dg)) =
      GetReachableFuel fuel sched dg := by
  rw [getReachableLogFuel_eq, getReachableFuel_eq]
  have h := forRangeLog_erase (fun k l => dfsLog_erase sched fuel k l)
    (sched.order 0 dg.roots.keys) (LSt.init dg)
  have h2 : (LSt.init dg).st = St.init dg := rfl
  rw [h2] at h
  rw [← h]
  cases forRangeLog (fun root s => dfsLog sched fuel root s) (sched.order 0 dg.roots.keys)
      (LSt.init dg) with
  | none => rfl
  | some ls => rfl

/-- The instrumented call returns, its state part is what the plain call returns,
and both records are as `LogOK` and `TraceOK` describe. -/
theorem getReachableLog_spec (sched : Schedule) (dg : DependencyGraph) :
    ∃ ls, GetReachableLog sched dg = some ls ∧
      GetReachable sched dg = some (ls.st.reachable, dg) ∧
      AllTrue ls.st.reachable ∧ LogOK ls ∧ TraceOK ls := by
  obtain ⟨r, hr, hall, _⟩ := getReachable_spec sched dg
  have he := getReachableLogFuel_erase ((symbols dg).length + 1) sched dg
  have hr2 : GetReachableFuel ((symbols dg).length + 1) sched dg = some (r, dg) := hr
  rw [hr2] at he
  cases hls : GetReachableLogFuel ((symbols dg).length + 1) sched dg with
  | none => simp [hls] at he
  | some ls =>
    rw [hls] at he
    simp only [Option.map_some', Option.some.injEq, Prod.mk.injEq] at he
    have hrun := hls
    rw [getReachableLogFuel_eq] at hrun
    have hlog0 : LogOK (LSt.init dg) :=
      ⟨List.nodup_nil, fun x => by simp [LSt.init, St.init, BoolMap.index]⟩
    have htr0 : TraceOK (LSt.init dg) :=
      ⟨rfl, fun e he => absurd he (List.not_mem_nil e)⟩
    refine ⟨ls, hls, ?_, he.1 ▸ hall, ?_, ?_⟩
    · rw [he.1]
      exact hr
    · exact forRangeLog_inv LogOK (fun k l l1 hl hk => dfsLog_logOK sched _ k l l1 hl hk)
        _ _ _ hlog0 hrun
    · exact forRangeLog_inv TraceOK (fun k l l1 hl hk => dfsLog_traceOK sched _ k l l1 hl hk)
        _ _ _ htr0 hrun

/-! ## Sequences of mutations and small graphs -/

theorem not_edge_new (x y : String) : ¬ Edge NewDependencyGraph x y := by
  rintro ⟨m, hm, _⟩
  simp [NewDependencyGraph] at hm

theorem not_mem_roots_new (x : String) : x ∉ NewDependencyGraph.roots :=
  AList.not_mem_empty x

theorem edge_applyOps (ops : List Op) :
    ∀ (dg : DependencyGraph) (x y : String),
      Edge (applyOps dg ops) x y ↔ Edge dg x y ∨ Op.addCall x y ∈ ops := by
  induction ops with
  | nil => exact fun dg x y => by simp [applyOps]
  | cons op ops ih =>
    intro dg x y
    have hstep : applyOps dg (op :: ops) = applyOps (op.apply dg) ops := rfl
    rw [hstep, ih, List.mem_cons]
    cases op with
    | addCall a b =>
      show Edge (AddCall dg a b) x y ∨ _ ↔ _
      rw [edge_addCall]
      simp only [Op.addCall.injEq]
      tauto
    | markRoot r =>
      show Edge (MarkRoot dg r) x y ∨ _ ↔ _
      rw [edge_markRoot]
      simp

theorem mem_roots_applyOps (ops : List Op) :
    ∀ (dg : DependencyGraph) (x : String),
      x ∈ (applyOps dg ops).roots ↔ x ∈ dg.roots ∨ Op.markRoot x ∈ ops := by
  induction ops with
  | nil => exact fun dg x => by simp [applyOps]
  | cons op ops ih =>
    intro dg x
    have hstep : applyOps dg (op :: ops) = applyOps (op.apply dg) ops := rfl
    rw [hstep, ih, List.mem_cons]
    cases op with
    | addCall a b =>
      show x ∈ (AddCall dg a b).roots ∨ _ ↔ _
      rw [addCall_roots]
      simp
    | markRoot r =>
      show x ∈ (MarkRoot dg r).roots ∨ _ ↔ _
      rw [mem_roots_markRoot]
      simp only [Op.markRoot.injEq]
      tauto

theorem reach_congr {dg dg2 : DependencyGraph} (hr : ∀ x, x ∈ dg.roots ↔ x ∈ dg2.roots)
    (he : ∀ x y, Edge dg x y ↔ Edge dg2 x y) (s : String) : Reach dg s ↔ Reach dg2 s :=
  ⟨reach_mono (fun x => (hr x).mp) (fun x y => (he x y).mp),
    reach_mono (fun x => (hr x).mpr) (fun x y => (he x y).mpr)⟩

/-- Reachability stays inside every set that holds the roots and is closed under
the edges. -/
theorem reach_subset {dg : DependencyGraph} {P : String → Prop}
    (hr : ∀ x, x ∈ dg.roots → P x) (hc : ∀ x y, P x → Edge dg x y → P y)
    {s : String} (h : Reach dg s) : P s := by
  obtain ⟨r, hrr, hp⟩ := h
  induction hp with
  | refl => exact hr r hrr
  | tail _ hedge ih => exact hc _ _ ih hedge

theorem reach_root {dg : DependencyGraph} {r : String} (h : r ∈ dg.roots) : Reach dg r :=
  ⟨r, h, Relation.ReflTransGen.refl⟩

theorem reach_step {dg : DependencyGraph} {x y : String} (h : Reach dg x) (he : Edge dg x y) :
    Reach dg y := by
  obtain ⟨r, hr, hp⟩ := h
  exact ⟨r, hr, Relation.ReflTransGen.tail hp he⟩

theorem eq_empty_of_not_mem {m : BoolMap} (h : ∀ x, x ∉ m) : m = ∅ := by
  apply AList.ext
  cases hm : m.entries with
  | nil => rfl
  | cons e es =>
    exfalso
    apply h e.1
    rw [AList.mem_keys, AList.keys, hm]
    simp [List.keys]

theorem keys_perm_of_mem_iff (r : BoolMap) (l : List String) (hl : l.Nodup)
    (h : ∀ s, s ∈ r ↔ s ∈ l) : r.keys.Perm l :=
  (List.perm_ext_iff_of_nodup r.keys_nodup hl).mpr (fun s => by rw [← AList.mem_keys, h])

theorem chainOf_eq (A B C : String) :
    chainOf A B C =
      applyOps NewDependencyGraph [Op.addCall A B, Op.addCall B C, Op.markRoot A] := rfl

theorem cycleOf_eq (A B : String) :
    cycleOf A B =
      applyOps NewDependencyGraph [Op.addCall A B, Op.addCall B A, Op.markRoot A] := rfl

theorem selfLoopOf_eq (A : String) :
    selfLoopOf A = applyOps NewDependencyGraph [Op.addCall A A, Op.markRoot A] := rfl

theorem reach_chainOf (A B C s : String) :
    Reach (chainOf A B C) s ↔ s = A ∨ s = B ∨ s = C := by
  have hroot : ∀ x, x ∈ (chainOf A B C).roots ↔ x = A := fun x => by
    rw [chainOf_eq, mem_roots_applyOps]
    simp [not_mem_roots_new]
  have hedge : ∀ x y, Edge (chainOf A B C) x y ↔ (x = A ∧ y = B) ∨ (x = B ∧ y = C) :=
    fun x y => by
      rw [chainOf_eq, edge_applyOps]
      simp [not_edge_new]
  have hA : Reach (chainOf A B C) A := reach_root ((hroot A).mpr rfl)
  have hB : Reach (chainOf A B C) B := reach_step hA ((hedge A B).mpr (Or.inl ⟨rfl, rfl⟩))
  have hC : Reach (chainOf A B C) C := reach_step hB ((hedge B C).mpr (Or.inr ⟨rfl, rfl⟩))
  constructor
  · intro h
    refine reach_subset (P := fun s => s = A ∨ s = B ∨ s = C) ?_ ?_ h
    · exact fun x hx => Or.inl ((hroot x).mp hx)
    · intro x y _ hxy
      rcases (hedge x y).mp hxy with ⟨_, h2⟩ | ⟨_, h2⟩
      · exact Or.inr (Or.inl h2)
      · exact Or.inr (Or.inr h2)
  · rintro (rfl | rfl | rfl)
    · exact hA
    · exact hB
    · exact hC

theorem reach_cycleOf (A B s : String) : Reach (cycleOf A B) s ↔ s = A ∨ s = B := by
  have hroot : ∀ x, x ∈ (cycleOf A B).roots ↔ x = A := fun x => by
    rw [cycleOf_eq, mem_roots_applyOps]
    simp [not_mem_roots_new]
  have hedge : ∀ x y, Edge (cycleOf A B) x y ↔ (x = A ∧ y = B) ∨ (x = B ∧ y = A) :=
    fun x y => by
      rw [cycleOf_eq, edge_applyOps]
      simp [not_edge_new]
  have hA : Reach (cycleOf A B) A := reach_root ((hroot A).mpr rfl)
  have hB : Reach (cycleOf A B) B := reach_step hA ((hedge A B).mpr (Or.inl ⟨rfl, rfl⟩))
  constructor
  · intro h
    refine reach_subset (P := fun s => s = A ∨ s = B) ?_ ?_ h
    · exact fun x hx => Or.inl ((hroot x).mp hx)
    · intro x y _ hxy
      rcases (hedge x y).mp hxy with ⟨_, h2⟩ | ⟨_, h2⟩
      · exact Or.inr h2
      · exact Or.inl h2
  · rintro (rfl | rfl)
    · exact hA
    · exact hB

theorem reach_selfLoopOf (A s : String) : Reach (selfLoopOf A) s ↔ s = A := by
  have hroot : ∀ x, x ∈ (selfLoopOf A).roots ↔ x = A := fun x => by
    rw [selfLoopOf_eq, mem_roots_applyOps]
    simp [not_mem_roots_new]
  have hedge : ∀ x y, Edge (selfLoopOf A) x y ↔ (x = A ∧ y = A) := fun x y => by
    rw [selfLoopOf_eq, edge_applyOps]
    simp [not_edge_new]
  constructor
  · intro h
    refine reach_subset (P := fun s => s = A) ?_ ?_ h
    · exact fun x hx => (hroot x).mp hx
    · intro x y _ hxy
      exact ((hedge x y).mp hxy).2
  · rintro rfl
    exact reach_root ((hroot s).mpr rfl)

theorem storedTrue_new : StoredTrue NewDependencyGraph := by
  refine ⟨allTrue_empty, ?_⟩
  intro x m h
  simp [NewDependencyGraph] at h

theorem storedTrue_addCall {dg : DependencyGraph} (h : StoredTrue dg) (a b : String) :
    StoredTrue (AddCall dg a b) := by
  refine ⟨by rw [addCall_roots]; exact h.1, ?_⟩
  intro x m hx
  by_cases hxa : x = a
  · subst hxa
    rw [addCall_lookup_self] at hx
    rw [← Option.some.inj hx]
    apply allTrue_insert
    cases hl : dg.graph.lookup x with
    | none => exact allTrue_empty
    | some m0 => exact h.2 x m0 hl
  · rw [addCall_lookup_ne dg a b hxa] at hx
    exact h.2 x m hx

theorem storedTrue_markRoot {dg : DependencyGraph} (h : StoredTrue dg) (r : String) :
    StoredTrue (MarkRoot dg r) :=
  ⟨allTrue_insert h.1 r, h.2⟩

theorem storedTrue_applyOps (ops : List Op) :
    ∀ dg : DependencyGraph, StoredTrue dg → StoredTrue (applyOps dg ops) := by
  induction ops with
  | nil => exact fun dg h => h
  | cons op ops ih =>
    intro dg h
    show StoredTrue (applyOps (op.apply dg) ops)
    apply ih
    cases op with
    | addCall a b => exact storedTrue_addCall h a b
    | markRoot r => exact storedTrue_markRoot h r

/-! ## The claims -/

/-- Claim C1. In every graph state (so in every state built by a finite sequence of
`AddCall` and `MarkRoot` calls) and for every iteration order, `GetReachable` returns
a map `r` such that a symbol `s` is a key of `r`, and `r[s]` is `true`, exactly when
some root reaches `s` by a path of zero or more recorded edges. -/
theorem GetReachable_iff_reach (sched : Schedule) (dg : DependencyGraph) :
    ∃ r, GetReachable sched dg = some (r, dg) ∧
      ∀ s, (s ∈ r ↔ ∃ root, root ∈ dg.roots ∧ Relation.ReflTransGen (Edge dg) root s) ∧
        (BoolMap.index r s = true ↔
          ∃ root, root ∈ dg.roots ∧ Relation.ReflTransGen (Edge dg) root s) := by
  obtain ⟨r, hr, hall, hmem⟩ := getReachable_spec sched dg
  exact ⟨r, hr, fun s => ⟨hmem s, (index_iff_mem hall s).trans (hmem s)⟩⟩

/-- Claim C2. `GetReachable` returns on every graph state, cyclic or not, under every
iteration order; every recursion-depth budget above the number of symbols gives that
same result; `dfs` returns from every state whose number of not-yet-visited symbols is
below its budget, without increasing that number; and marking an unvisited symbol that
has a callee, which is what precedes every recursive call, strictly decreases it. -/
theorem GetReachable_terminates (sched : Schedule) (dg : DependencyGraph) :
    (∃ out, GetReachable sched dg = some out) ∧
    (∀ fuel, (symbols dg).length < fuel →
      GetReachableFuel fuel sched dg = GetReachable sched dg) ∧
    (∀ fuel f st, (unvisited st).length < fuel →
      ∃ st1, dfs sched fuel f st = some st1 ∧
        (unvisited st1).length ≤ (unvisited st).length) ∧
    (∀ (st : St) (f callee : String), st.visited.index f = false → Edge st.dg f callee →
      (unvisited (st.mark f)).length < (unvisited st).length) := by
  refine ⟨?_, fun fuel h => getReachableFuel_eq_getReachable sched dg fuel h, ?_, ?_⟩
  · obtain ⟨r, hr, _⟩ := getReachable_spec sched dg
    exact ⟨_, hr⟩
  · intro fuel f st h
    obtain ⟨st1, h1⟩ := dfs_total sched fuel f st h
    exact ⟨st1, h1, unvisited_length_le (dfs_ext sched _ _ _ _ h1)⟩
  · intro st f callee hv he
    exact unvisited_mark_lt (mem_symbols_of_edge he) (by simp [hv])

theorem GetReachable_terminates_witness :
    ∃ out, GetReachable Schedule.reversed loopy = some out :=
  (GetReachable_terminates Schedule.reversed loopy).1

/-- Claim C3. Multi-root union law: over one edge mapping, when the root set is
`{r1, r2}` the set returned by `GetReachable` is the union of the sets returned with
root set `{r1}` and with root set `{r2}`. -/
theorem GetReachable_union (s12 s1 s2 : Schedule) (graph : EdgeMap)
    (roots12 roots1 roots2 : BoolMap) (r1 r2 : String)
    (h1 : ∀ x, x ∈ roots1 ↔ x = r1) (h2 : ∀ x, x ∈ roots2 ↔ x = r2)
    (h12 : ∀ x, x ∈ roots12 ↔ x = r1 ∨ x = r2) :
    ∃ a b c,
      GetReachable s12 ⟨graph, roots12⟩ = some (a, ⟨graph, roots12⟩) ∧
      GetReachable s1 ⟨graph, roots1⟩ = some (b, ⟨graph, roots1⟩) ∧
      GetReachable s2 ⟨graph, roots2⟩ = some (c, ⟨graph, roots2⟩) ∧
      ∀ s, s ∈ a ↔ s ∈ b ∨ s ∈ c := by
  obtain ⟨a, ha, _, hma⟩ := getReachable_spec s12 ⟨graph, roots12⟩
  obtain ⟨b, hb, _, hmb⟩ := getReachable_spec s1 ⟨graph, roots1⟩
  obtain ⟨c, hc, _, hmc⟩ := getReachable_spec s2 ⟨graph, roots2⟩
  refine ⟨a, b, c, ha, hb, hc, fun s => ?_⟩
  rw [hma, hmb, hmc]
  constructor
  · rintro ⟨r, hr, hp⟩
    rcases (h12 r).mp hr with h | h
    · exact Or.inl ⟨r, (h1 r).mpr h, hp⟩
    · exact Or.inr ⟨r, (h2 r).mpr h, hp⟩
  · rintro (⟨r, hr, hp⟩ | ⟨r, hr, hp⟩)
    · exact ⟨r, (h12 r).mpr (Or.inl ((h1 r).mp hr)), hp⟩
    · exact ⟨r, (h12 r).mpr (Or.inr ((h2 r).mp hr)), hp⟩

theorem GetReachable_union_witness :
    ∃ a b c,
      GetReachable Schedule.stored ⟨twoChains, rootsAC⟩ = some (a, ⟨twoChains, rootsAC⟩) ∧
      GetReachable Schedule.reversed ⟨twoChains, rootsA⟩ = some (b, ⟨twoChains, rootsA⟩) ∧
      GetReachable Schedule.stored ⟨twoChains, rootsC⟩ = some (c, ⟨twoChains, rootsC⟩) ∧
      ∀ s, s ∈ a ↔ s ∈ b ∨ s ∈ c :=
  GetReachable_union Schedule.stored Schedule.reversed Schedule.stored twoChains
    rootsAC rootsA rootsC "A" "C"
    (fun x => by
      rw [rootsA, mem_roots_markRoot]
      simp [NewDependencyGraph])
    (fun x => by
      rw [rootsC, mem_roots_markRoot]
      simp [NewDependencyGraph])
    (fun x => by
      rw [rootsAC, mem_roots_markRoot, mem_roots_markRoot]
      simp [NewDependencyGraph]
      tauto)

/-- Claim C4. Monotonicity: every symbol returned by `GetReachable` is still returned
after a further `AddCall`, after a further `MarkRoot`, and after any further sequence
of `AddCall` and `MarkRoot` calls. -/
theorem GetReachable_monotone (sched sched2 : Schedule) (dg : DependencyGraph) :
    ∃ r, GetReachable sched dg = some (r, dg) ∧
      (∀ a b, ∃ r2, GetReachable sched2 (AddCall dg a b) = some (r2, AddCall dg a b) ∧
        ∀ s, s ∈ r → s ∈ r2) ∧
      (∀ root, ∃ r2, GetReachable sched2 (MarkRoot dg root) = some (r2, MarkRoot dg root) ∧
        ∀ s, s ∈ r → s ∈ r2) ∧
      (∀ ops : List Op, ∃ r2,
        GetReachable sched2 (applyOps dg ops) = some (r2, applyOps dg ops) ∧
        ∀ s, s ∈ r → s ∈ r2) := by
  obtain ⟨r, hr, _, hm⟩ := getReachable_spec sched dg
  refine ⟨r, hr, fun a b => ?_, fun root => ?_, fun ops => ?_⟩
  · obtain ⟨r2, hr2, _, hm2⟩ := getReachable_spec sched2 (AddCall dg a b)
    exact ⟨r2, hr2, fun s hs => (hm2 s).mpr (reach_addCall a b ((hm s).mp hs))⟩
  · obtain ⟨r2, hr2, _, hm2⟩ := getReachable_spec sched2 (MarkRoot dg root)
    exact ⟨r2, hr2, fun s hs => (hm2 s).mpr (reach_markRoot root ((hm s).mp hs))⟩
  · obtain ⟨r2, hr2, _, hm2⟩ := getReachable_spec sched2 (applyOps dg ops)
    exact ⟨r2, hr2, fun s hs => (hm2 s).mpr (reach_applyOps ops dg ((hm s).mp hs))⟩

/-- Claim C5. Order independence: whatever orders the roots and the callees are
iterated in, `GetReachable` returns maps with the same keys and the same values. -/
theorem GetReachable_order_independent (sched1 sched2 : Schedule) (dg : DependencyGraph) :
    ∃ r1 r2, GetReachable sched1 dg = some (r1, dg) ∧ GetReachable sched2 dg = some (r2, dg) ∧
      (∀ s, s ∈ r1 ↔ s ∈ r2) ∧ ∀ s, r1.lookup s = r2.lookup s :=
  getReachable_agree sched1 sched2 dg dg (fun _ => Iff.rfl)

/-- Claim C6. Idempotence of the query: a `GetReachable` call made on the state the
previous `GetReachable` call left behind returns the same set, also when the two calls
iterate in different orders. -/
theorem GetReachable_twice (sched1 sched2 : Schedule) (dg : DependencyGraph) :
    ∃ r1 dg1 r2 dg2, GetReachable sched1 dg = some (r1, dg1) ∧
      GetReachable sched2 dg1 = some (r2, dg2) ∧
      (∀ s, s ∈ r1 ↔ s ∈ r2) ∧ ∀ s, r1.lookup s = r2.lookup s := by
  obtain ⟨r1, r2, h1, h2, hm, hl⟩ := getReachable_agree sched1 sched2 dg dg (fun _ => Iff.rfl)
  exact ⟨r1, dg, r2, dg, h1, h2, hm, hl⟩

/-- Claim C7. `GetReachable` is read-only: the state it hands back has the edge
mapping and the root set it was called on, entry for entry, and no `dfs` call changes
the receiver; reading the callees of a symbol without an entry creates none. -/
theorem GetReachable_read_only (sched : Schedule) (dg : DependencyGraph) :
    (∃ r, GetReachable sched dg = some (r, dg)) ∧
    (∀ fuel out, GetReachableFuel fuel sched dg = some out → out.2 = dg) ∧
    (∀ fuel f st st1, dfs sched fuel f st = some st1 → st1.dg = st.dg) := by
  refine ⟨?_, ?_, fun fuel f st st1 h => (dfs_ext sched fuel f st st1 h).dg_eq⟩
  · obtain ⟨r, hr, _⟩ := getReachable_spec sched dg
    exact ⟨r, hr⟩
  · intro fuel out h
    rw [getReachableFuel_eq] at h
    cases hrun : forRange (fun root s => dfs sched fuel root s) (sched.order 0 dg.roots.keys)
        (St.init dg) with
    | none => simp [hrun] at h
    | some st1 =>
      rw [hrun] at h
      have hdg := (forRange_ext (dfs_ext sched fuel) _ _ _ hrun).dg_eq
      simp only [Option.some.injEq] at h
      rw [← h]
      exact hdg

/-- Claim C8. `AddCall` is idempotent: calling it twice with the same pair leaves the
same state as calling it once, and `GetReachable` returns the same set in both
cases. -/
theorem AddCall_idempotent (sched1 sched2 : Schedule) (dg : DependencyGraph) (a b : String) :
    AddCall (AddCall dg a b) a b = AddCall dg a b ∧
    ∃ r1 r2, GetReachable sched1 (AddCall dg a b) = some (r1, AddCall dg a b) ∧
      GetReachable sched2 (AddCall (AddCall dg a b) a b) =
        some (r2, AddCall (AddCall dg a b) a b) ∧
      (∀ s, s ∈ r1 ↔ s ∈ r2) ∧ ∀ s, r1.lookup s = r2.lookup s :=
  ⟨addCall_idem dg a b,
    getReachable_agree sched1 sched2 _ _ (fun _ => by rw [addCall_idem])⟩

/-- Claim C9. `AddCall(a, b)` postcondition and frame: the edge relation becomes the
previous one plus the pair `(a, b)`; the entry of every caller other than `a` is as
before; the callee map of `a` is its previous one (the empty one when `a` had no
entry) with `b` stored as `true`; and the root set is unchanged. -/
theorem AddCall_post (dg : DependencyGraph) (a b : String) :
    (∀ x y, Edge (AddCall dg a b) x y ↔ Edge dg x y ∨ (x = a ∧ y = b)) ∧
    (∀ x, x ≠ a → (AddCall dg a b).graph.lookup x = dg.graph.lookup x) ∧
    (AddCall dg a b).graph.lookup a =
      some (((dg.graph.lookup a).getD ∅).insert b true) ∧
    (∀ y, y ∈ rangeKeys ((AddCall dg a b).graph.lookup a) ↔
      y = b ∨ y ∈ rangeKeys (dg.graph.lookup a)) ∧
    (AddCall dg a b).roots = dg.roots := by
  refine ⟨edge_addCall dg a b, fun x hx => addCall_lookup_ne dg a b hx,
    addCall_lookup_self dg a b, fun y => ?_, addCall_roots dg a b⟩
  rw [mem_rangeKeys, mem_rangeKeys, edge_addCall]
  tauto

/-- Claim C10. `MarkRoot(s)` postcondition: the root set becomes the previous one plus
`s` (stored as `true`, every other entry as before), whether or not `s` occurs in an
edge; the edge mapping is unchanged; and a second `MarkRoot(s)` changes nothing. -/
theorem MarkRoot_post (dg : DependencyGraph) (s : String) :
    (∀ x, x ∈ (MarkRoot dg s).roots ↔ x = s ∨ x ∈ dg.roots) ∧
    (MarkRoot dg s).roots.lookup s = some true ∧
    (∀ x, x ≠ s → (MarkRoot dg s).roots.lookup x = dg.roots.lookup x) ∧
    (MarkRoot dg s).graph = dg.graph ∧
    MarkRoot (MarkRoot dg s) s = MarkRoot dg s := by
  refine ⟨mem_roots_markRoot dg s, AList.lookup_insert _,
    fun x hx => AList.lookup_insert_ne hx, rfl, ?_⟩
  simp [MarkRoot, AList.insert_insert]

/-- Claim C11. Mutation order does not matter: two sequences of `AddCall` and
`MarkRoot` calls that are permutations of each other, applied to the same graph (a
fresh one in particular), give the same edge relation and the same root set, and
`GetReachable` returns the same set on both. -/
theorem mutation_order_irrelevant (sched1 sched2 : Schedule) (dg : DependencyGraph)
    (ops ops2 : List Op) (hperm : ops.Perm ops2) :
    (∀ x y, Edge (applyOps dg ops) x y ↔ Edge (applyOps dg ops2) x y) ∧
    (∀ x, x ∈ (applyOps dg ops).roots ↔ x ∈ (applyOps dg ops2).roots) ∧
    ∃ r1 r2, GetReachable sched1 (applyOps dg ops) = some (r1, applyOps dg ops) ∧
      GetReachable sched2 (applyOps dg ops2) = some (r2, applyOps dg ops2) ∧
      (∀ s, s ∈ r1 ↔ s ∈ r2) ∧ ∀ s, r1.lookup s = r2.lookup s := by
  have he : ∀ x y, Edge (applyOps dg ops) x y ↔ Edge (applyOps dg ops2) x y := fun x y => by
    rw [edge_applyOps, edge_applyOps, hperm.mem_iff]
  have hr : ∀ x, x ∈ (applyOps dg ops).roots ↔ x ∈ (applyOps dg ops2).roots := fun x => by
    rw [mem_roots_applyOps, mem_roots_applyOps, hperm.mem_iff]
  exact ⟨he, hr, getReachable_agree sched1 sched2 _ _ (reach_congr hr he)⟩

theorem mutation_order_irrelevant_witness :
    (∀ x y, Edge (applyOps NewDependencyGraph [Op.markRoot "A", Op.addCall "A" "B"]) x y ↔
      Edge (applyOps NewDependencyGraph [Op.addCall "A" "B", Op.markRoot "A"]) x y) ∧
    (∀ x, x ∈ (applyOps NewDependencyGraph [Op.markRoot "A", Op.addCall "A" "B"]).roots ↔
      x ∈ (applyOps NewDependencyGraph [Op.addCall "A" "B", Op.markRoot "A"]).roots) ∧
    ∃ r1 r2,
      GetReachable Schedule.stored
          (applyOps NewDependencyGraph [Op.markRoot "A", Op.addCall "A" "B"]) =
        some (r1, applyOps NewDependencyGraph [Op.markRoot "A", Op.addCall "A" "B"]) ∧
      GetReachable Schedule.reversed
          (applyOps NewDependencyGraph [Op.addCall "A" "B", Op.markRoot "A"]) =
        some (r2, applyOps NewDependencyGraph [Op.addCall "A" "B", Op.markRoot "A"]) ∧
      (∀ s, s ∈ r1 ↔ s ∈ r2) ∧ ∀ s, r1.lookup s = r2.lookup s :=
  mutation_order_irrelevant Schedule.stored Schedule.reversed NewDependencyGraph
    [Op.markRoot "A", Op.addCall "A" "B"] [Op.addCall "A" "B", Op.markRoot "A"]
    (List.Perm.swap _ _ _)

/-- Claim C12. Empty root set: when no symbol is a root, whatever the edge mapping,
`GetReachable` returns the empty map. -/
theorem GetReachable_no_roots (sched : Schedule) (dg : DependencyGraph)
    (hroots : ∀ x, x ∉ dg.roots) : GetReachable sched dg = some (∅, dg) := by
  obtain ⟨r, hr, _, hm⟩ := getReachable_spec sched dg
  have hempty : r = ∅ := eq_empty_of_not_mem (fun x hx => by
    obtain ⟨root, hroot, _⟩ := (hm x).mp hx
    exact hroots root hroot)
  rw [hr, hempty]

theorem GetReachable_no_roots_witness :
    GetReachable Schedule.stored NewDependencyGraph = some (∅, NewDependencyGraph) ∧
    GetReachable Schedule.stored ⟨twoChains, ∅⟩ = some (∅, ⟨twoChains, ∅⟩) :=
  ⟨GetReachable_no_roots Schedule.stored NewDependencyGraph not_mem_roots_new,
    GetReachable_no_roots Schedule.stored ⟨twoChains, ∅⟩ (fun x => AList.not_mem_empty x)⟩

/-- Claim C13. Isolated root: when the root set is exactly `{r}` and `r` has no callee
(no entry in the graph, or an entry without keys), `GetReachable` returns exactly
`{r}`, whatever edges the other symbols have. -/
theorem GetReachable_isolated_root (sched : Schedule) (dg : DependencyGraph) (r : String)
    (hroots : ∀ x, x ∈ dg.roots ↔ x = r) (hout : rangeKeys (dg.graph.lookup r) = []) :
    ∃ res, GetReachable sched dg = some (res, dg) ∧ (∀ s, s ∈ res ↔ s = r) ∧
      res.keys = [r] ∧ res.lookup r = some true := by
  obtain ⟨res, hres, hall, hm⟩ := getReachable_spec sched dg
  have hno : ∀ y, ¬ Edge dg r y := fun y hy => by
    rw [← mem_rangeKeys, hout] at hy
    exact List.not_mem_nil y hy
  have hmem : ∀ s, s ∈ res ↔ s = r := by
    intro s
    rw [hm]
    constructor
    · intro h
      refine reach_subset (P := fun s => s = r) (fun x hx => (hroots x).mp hx) ?_ h
      intro x y hx hxy
      subst hx
      exact absurd hxy (hno y)
    · rintro rfl
      exact reach_root ((hroots s).mpr rfl)
  refine ⟨res, hres, hmem, ?_, lookup_of_mem hall ((hmem r).mpr rfl)⟩
  exact List.perm_singleton.mp
    (keys_perm_of_mem_iff res [r] (List.nodup_singleton r) (fun s => by
      rw [hmem, List.mem_singleton]))

theorem GetReachable_isolated_root_witness :
    ∃ res, GetReachable Schedule.stored isolated = some (res, isolated) ∧
      (∀ s, s ∈ res ↔ s = "A") ∧ res.keys = ["A"] ∧ res.lookup "A" = some true :=
  GetReachable_isolated_root Schedule.stored isolated "A"
    (fun x => by
      rw [isolated, mem_roots_markRoot, addCall_roots]
      simp [not_mem_roots_new])
    (by decide)

/-- Claim C14. Every root is reachable: each key of the root set is a key of the map
`GetReachable` returns, with value `true`, whether or not it occurs in an edge. -/
theorem roots_are_reachable (sched : Schedule) (dg : DependencyGraph) :
    ∃ r, GetReachable sched dg = some (r, dg) ∧
      ∀ root, root ∈ dg.roots → root ∈ r ∧ BoolMap.index r root = true := by
  obtain ⟨r, hr, hall, hm⟩ := getReachable_spec sched dg
  refine ⟨r, hr, fun root hroot => ?_⟩
  have h : root ∈ r := (hm root).mpr (reach_root hroot)
  exact ⟨h, (index_iff_mem hall root).mpr h⟩

/-- Claim C15. Transitive chain: for pairwise distinct `A`, `B`, `C`, after
`AddCall(A, B)`, `AddCall(B, C)` and `MarkRoot(A)` on a fresh graph, `GetReachable`
returns exactly `{A, B, C}`; `C` has no entry in the edge mapping and no outgoing
edge. -/
theorem chain_reachable (sched : Schedule) (A B C : String)
    (hAB : A ≠ B) (hBC : B ≠ C) (hAC : A ≠ C) :
    ∃ r, GetReachable sched (chainOf A B C) = some (r, chainOf A B C) ∧
      (∀ s, s ∈ r ↔ s = A ∨ s = B ∨ s = C) ∧ r.keys.Perm [A, B, C] ∧
      (chainOf A B C).graph.lookup C = none ∧ ∀ y, ¬ Edge (chainOf A B C) C y := by
  obtain ⟨r, hr, _, hm⟩ := getReachable_spec sched (chainOf A B C)
  have hmem : ∀ s, s ∈ r ↔ s = A ∨ s = B ∨ s = C := fun s => by
    rw [hm, reach_chainOf]
  have hnone : (chainOf A B C).graph.lookup C = none := by
    show (AddCall (AddCall NewDependencyGraph A B) B C).graph.lookup C = none
    rw [addCall_lookup_ne _ B C (Ne.symm hBC), addCall_lookup_ne _ A B (Ne.symm hAC)]
    rfl
  refine ⟨r, hr, hmem, ?_, hnone, ?_⟩
  · apply keys_perm_of_mem_iff r [A, B, C]
    · simp [hAB, hBC, hAC]
    · intro s
      rw [hmem]
      simp
  · rintro y ⟨m, hm2, _⟩
    rw [hnone] at hm2
    cases hm2

theorem chain_reachable_witness :
    ∃ r, GetReachable Schedule.reversed (chainOf "A" "B" "C") =
        some (r, chainOf "A" "B" "C") ∧
      (∀ s, s ∈ r ↔ s = "A" ∨ s = "B" ∨ s = "C") ∧ r.keys.Perm ["A", "B", "C"] ∧
      (chainOf "A" "B" "C").graph.lookup "C" = none ∧
      ∀ y, ¬ Edge (chainOf "A" "B" "C") "C" y :=
  chain_reachable Schedule.reversed "A" "B" "C" (by decide) (by decide) (by decide)

/-- Claim C16. Cycle safety: for distinct `A`, `B`, after `AddCall(A, B)`,
`AddCall(B, A)` and `MarkRoot(A)` on a fresh graph, `GetReachable` returns, and what
it returns is exactly `{A, B}`. -/
theorem cycle_reachable (sched : Schedule) (A B : String) (hAB : A ≠ B) :
    ∃ r, GetReachable sched (cycleOf A B) = some (r, cycleOf A B) ∧
      (∀ s, s ∈ r ↔ s = A ∨ s = B) ∧ r.keys.Perm [A, B] := by
  obtain ⟨r, hr, _, hm⟩ := getReachable_spec sched (cycleOf A B)
  have hmem : ∀ s, s ∈ r ↔ s = A ∨ s = B := fun s => by
    rw [hm, reach_cycleOf]
  refine ⟨r, hr, hmem, ?_⟩
  apply keys_perm_of_mem_iff r [A, B]
  · simp [hAB]
  · intro s
    rw [hmem]
    simp

theorem cycle_reachable_witness :
    ∃ r, GetReachable Schedule.stored (cycleOf "A" "B") = some (r, cycleOf "A" "B") ∧
      (∀ s, s ∈ r ↔ s = "A" ∨ s = "B") ∧ r.keys.Perm ["A", "B"] :=
  cycle_reachable Schedule.stored "A" "B" (by decide)

/-- Claim C17. Self-loop safety: after `AddCall(A, A)` and `MarkRoot(A)` on a fresh
graph, `GetReachable` returns, and what it returns is exactly `{A}`. -/
theorem selfLoop_reachable (sched : Schedule) (A : String) :
    ∃ r, GetReachable sched (selfLoopOf A) = some (r, selfLoopOf A) ∧
      (∀ s, s ∈ r ↔ s = A) ∧ r.keys = [A] := by
  obtain ⟨r, hr, _, hm⟩ := getReachable_spec sched (selfLoopOf A)
  have hmem : ∀ s, s ∈ r ↔ s = A := fun s => by
    rw [hm, reach_selfLoopOf]
  refine ⟨r, hr, hmem, ?_⟩
  exact List.perm_singleton.mp
    (keys_perm_of_mem_iff r [A] (List.nodup_singleton A) (fun s => by
      rw [hmem, List.mem_singleton]))

/-- Claim C18. Expand-at-most-once: in the run of `GetReachable` instrumented to log
each symbol whose callees `dfs` iterates, the result is that of the plain run, every
symbol occurs in the log at most once, and the logged symbols are exactly the keys
of the returned map. -/
theorem expand_at_most_once (sched : Schedule) (dg : DependencyGraph) :
    ∃ ls, GetReachableLog sched dg = some ls ∧
      GetReachable sched dg = some (ls.st.reachable, dg) ∧
      (∀ s, ls.log.count s ≤ 1) ∧ ∀ s, s ∈ ls.log ↔ s ∈ ls.st.reachable := by
  obtain ⟨ls, hls, hplain, hall, hlog, htr⟩ := getReachableLog_spec sched dg
  refine ⟨ls, hls, hplain, List.nodup_iff_count_le_one.mp hlog.1, fun s => ?_⟩
  rw [hlog.2 s, ← htr.1]
  exact index_iff_mem hall s

/-- Claim C19. Least closed set: the set `GetReachable` returns holds every root, is
closed under the recorded edges, and lies inside every set of symbols that holds
every root and is closed under the recorded edges. -/
theorem GetReachable_least_closed (sched : Schedule) (dg : DependencyGraph) :
    ∃ r, GetReachable sched dg = some (r, dg) ∧
      (∀ x, x ∈ dg.roots → x ∈ r) ∧
      (∀ x y, x ∈ r → Edge dg x y → y ∈ r) ∧
      ∀ S : Set String, (∀ x, x ∈ dg.roots → x ∈ S) →
        (∀ x y, x ∈ S → Edge dg x y → y ∈ S) → ∀ s, s ∈ r → s ∈ S := by
  obtain ⟨r, hr, _, hm⟩ := getReachable_spec sched dg
  refine ⟨r, hr, fun x hx => (hm x).mpr (reach_root hx), ?_, ?_⟩
  · intro x y hx hxy
    exact (hm y).mpr (reach_step ((hm x).mp hx) hxy)
  · intro S hroots hclosed s hs
    exact reach_subset (P := fun s => s ∈ S) hroots hclosed ((hm s).mp hs)

/-- Claim C20, as the code has it. Every value stored in the map `GetReachable`
returns is `true`, so `result[s]` is `true` exactly when `s` is a key; in every state
built from `NewDependencyGraph` by `AddCall` and `MarkRoot` every root entry and every
callee entry is `true`; and inside `GetReachable` the maps `visited` and `reachable`
are equal at every call of `dfs`, after the second of its two assignments and at
the end, while between `visited[funcName] = true` and `reachable[funcName] = true`
the map `visited` is `reachable` with `funcName` added, which `reachable` lacks. -/
theorem no_false_entries (sched : Schedule) (dg : DependencyGraph) (ops : List Op) :
    (∃ r, GetReachable sched dg = some (r, dg) ∧
      (∀ s b, r.lookup s = some b → b = true) ∧
      ∀ s, BoolMap.index r s = true ↔ s ∈ r) ∧
    ((∀ x b, (applyOps NewDependencyGraph ops).roots.lookup x = some b → b = true) ∧
      ∀ x m y b, (applyOps NewDependencyGraph ops).graph.lookup x = some m →
        m.lookup y = some b → b = true) ∧
    ∃ ls, GetReachableLog sched dg = some ls ∧
      GetReachable sched dg = some (ls.st.reachable, dg) ∧
      ls.st.visited = ls.st.reachable ∧
      ∀ e, e ∈ ls.trace →
        if e.point = Point.afterVisited then
          e.visited = e.reachable.insert e.funcName true ∧
            BoolMap.index e.reachable e.funcName = false
        else e.visited = e.reachable := by
  refine ⟨?_, ?_, ?_⟩
  · obtain ⟨r, hr, hall, _⟩ := getReachable_spec sched dg
    exact ⟨r, hr, hall, index_iff_mem hall⟩
  · have h := storedTrue_applyOps ops NewDependencyGraph storedTrue_new
    exact ⟨h.1, fun x m y b hx hy => h.2 x m hx y b hy⟩
  · obtain ⟨ls, hls, hplain, _, _, htr⟩ := getReachableLog_spec sched dg
    exact ⟨ls, hls, hplain, htr.1.symm, htr.2⟩

/-- Claim C20 as stated fails: in the run on the graph with the single root `A`, at
the snapshot between the two assignments of `dfs("A")` the map `visited` holds `A`
and the map `reachable` does not, so the two maps are not equal at every step. -/
theorem visited_reachable_differ :
    ∃ ls, GetReachableLog Schedule.stored (MarkRoot NewDependencyGraph "A") = some ls ∧
      ∃ e, e ∈ ls.trace ∧ e.point = Point.afterVisited ∧ e.funcName = "A" ∧
        BoolMap.index e.visited "A" = true ∧ BoolMap.index e.reachable "A" = false ∧
        e.visited ≠ e.reachable := by
  have key : ∃ ls ∈ GetReachableLog Schedule.stored (MarkRoot NewDependencyGraph "A"),
      ∃ e ∈ ls.trace, e.point = Point.afterVisited ∧ e.funcName = "A" ∧
        BoolMap.index e.visited "A" = true ∧ BoolMap.index e.reachable "A" = false := by
    decide
  obtain ⟨ls, hls, e, he, hp, hf, hv, hr⟩ := key
  refine ⟨ls, hls, e, he, hp, hf, hv, hr, ?_⟩
  intro heq
  rw [heq, hr] at hv
  cases hv

end DepGraph
